import Mathlib

/-!
Verification development for the `sentinel` LLM gateway.

Shallow embedding of the request-processing core: the prompt-injection
detector, the circuit breaker, the retry policy, the provider router, the
exact-cache key derivation, the vector store, the PII redaction and the
chat-completion pipeline.  Python floats are modelled as rationals (`ℚ`),
machine integers as `ℕ`/`ℤ`, fallible operations as `Option`/`Except`,
and wall-clock time as an explicit `ℚ` parameter.
-/

namespace Sentinel

/-! ## Rounding (model of Python `round(x, 4)`)

Python `round` uses round-half-to-even.  We model it exactly on `ℚ`. -/

/-- Round a rational to the nearest integer, ties to even (Python `round`). -/
def roundHalfEven (q : ℚ) : ℤ :=
  if q - ⌊q⌋ < 1/2 then ⌊q⌋
  else if 1/2 < q - ⌊q⌋ then ⌊q⌋ + 1
  else if 2 ∣ ⌊q⌋ then ⌊q⌋ else ⌊q⌋ + 1

/-- Model of Python `round(q, 4)`. -/
def round4 (q : ℚ) : ℚ :=
  (roundHalfEven (q * 10000) : ℚ) / 10000

/-! ## Prompt-injection detector

From `src/sentinel/shield/prompt_injection_detector.py`.
Rule weights are the risk weights of the compiled regex rules; which rules
match a given text is regex matching and is abstracted as the list of
weights of the matched rules (`scan` passes exactly that list to
`_combine_scores`). -/

namespace Injection

/-- `InjectionAction` enum from the source. -/
inductive InjectionAction where
  | block
  | warn
  | pass
deriving DecidableEq

/-- `PromptInjectionDetector._combine_scores`:
`0.0` on an empty list, otherwise `round(1 - prod(1 - w), 4)`. -/
def combineScores (weights : List ℚ) : ℚ :=
  if weights = [] then 0
  else round4 (1 - (weights.map (fun w => 1 - w)).prod)

/-- `PromptInjectionDetector._get_action`. -/
def getAction (blockThreshold warnThreshold score : ℚ) : InjectionAction :=
  if blockThreshold ≤ score then .block
  else if warnThreshold ≤ score then .warn
  else .pass

/-- The reported `(risk_score, action)` of `PromptInjectionDetector.scan`
as a function of the weights of the matched rules: no match yields
`ScanResult.safe()` (score `0.0`, action `PASS`), otherwise the combined
score and `_get_action` of it. -/
def scanOutcome (blockThreshold warnThreshold : ℚ) (matchedWeights : List ℚ) :
    ℚ × InjectionAction :=
  if matchedWeights = [] then (0, .pass)
  else
    (combineScores matchedWeights,
     getAction blockThreshold warnThreshold (combineScores matchedWeights))

/-- Weights of `DEFAULT_RULES` in source order. -/
def defaultRuleWeights : List ℚ :=
  [95/100, 7/10, 9/10, 95/100, 85/100, 8/10, 9/10, 85/100]

/-- `InjectionSettings.block_threshold` default (`core/config.py`). -/
def settingsBlockThreshold : ℚ := 9/10

/-- `InjectionSettings.warn_threshold` default (`core/config.py`). -/
def settingsWarnThreshold : ℚ := 7/10

/-- The detector the pipeline constructs (`main.py` passes the
`InjectionSettings` values to `PromptInjectionDetector`). -/
def pipelineScanOutcome (matchedWeights : List ℚ) : ℚ × InjectionAction :=
  scanOutcome settingsBlockThreshold settingsWarnThreshold matchedWeights

end Injection

/-! ## Circuit breaker

From `src/sentinel/core/circuit_breaker.py`.  `time.time()` is modelled
as an explicit `now : ℚ` argument to the operations that read the clock. -/

namespace Breaker

inductive CircuitBreakerState where
  | closed
  | open_
  | halfOpen
deriving DecidableEq

/-- The `CircuitBreaker` object state. -/
structure CircuitBreaker where
  failure_threshold : ℕ
  recovery_timeout : ℚ
  failure_count : ℕ
  last_failure_time : ℚ
  state : CircuitBreakerState
deriving DecidableEq

/-- `CircuitBreaker.__init__`. -/
def init (failureThreshold : ℕ) (recoveryTimeout : ℚ) : CircuitBreaker :=
  { failure_threshold := failureThreshold
    recovery_timeout := recoveryTimeout
    failure_count := 0
    last_failure_time := 0
    state := .closed }

/-- `can_execute`, returning the boolean result and the updated state. -/
def canExecute (cb : CircuitBreaker) (now : ℚ) : Bool × CircuitBreaker :=
  if cb.state = .open_ then
    if cb.recovery_timeout < now - cb.last_failure_time then
      (true, { cb with state := .halfOpen })
    else
      (false, cb)
  else
    (true, cb)

/-- `record_success`. -/
def recordSuccess (cb : CircuitBreaker) : CircuitBreaker :=
  { cb with failure_count := 0, state := .closed }

/-- `reset`. -/
def reset (cb : CircuitBreaker) : CircuitBreaker :=
  { cb with failure_count := 0, last_failure_time := 0, state := .closed }

/-- `record_failure`. -/
def recordFailure (cb : CircuitBreaker) (now : ℚ) : CircuitBreaker :=
  let cb := { cb with failure_count := cb.failure_count + 1,
                      last_failure_time := now }
  if cb.failure_threshold ≤ cb.failure_count then
    { cb with state := .open_ }
  else
    cb

/-- One public method call, for reachability arguments. -/
inductive Op where
  | canExec (now : ℚ)
  | success
  | failure (now : ℚ)
  | doReset

/-- Apply one method call to the breaker state. -/
def step (cb : CircuitBreaker) : Op → CircuitBreaker
  | .canExec now => (canExecute cb now).2
  | .success => recordSuccess cb
  | .failure now => recordFailure cb now
  | .doReset => reset cb

/-- Run a call sequence from a given state. -/
def runOps (cb : CircuitBreaker) (ops : List Op) : CircuitBreaker :=
  ops.foldl step cb

/-- Record `n` consecutive failures at the given times. -/
def afterFailures (cb : CircuitBreaker) (times : List ℚ) : CircuitBreaker :=
  times.foldl recordFailure cb

/-- The reachability invariant behind claim C10: away from `closed`, the
failure count has already reached the threshold (no transition resets the
count without also closing the breaker). -/
def Inv (ft : ℕ) (cb : CircuitBreaker) : Prop :=
  cb.failure_threshold = ft ∧
  (cb.state ≠ .closed → ft ≤ cb.failure_count)

end Breaker

/-! ## Retry policy

From `src/sentinel/core/retry.py`.  The wrapped operation is modelled as a
function from the attempt number (1-based) to that invocation's outcome,
and `random.uniform(0, base_delay)` as an oracle `u : ℕ → ℚ` whose values
lie in `[0, base_delay]`.  `asyncio.sleep` durations are recorded in a
trace instead of being performed. -/

namespace Retry

/-- `RetryPolicy.__init__` parameters. -/
structure RetryPolicy where
  max_attempts : ℕ
  base_delay : ℚ
  max_delay : ℚ

/-- `RetryPolicy.calculate_backoff_time`:
`min(max_delay, base_delay * 2**attempt + random.uniform(0, base_delay))`. -/
def calculateBackoffTime (p : RetryPolicy) (u : ℕ → ℚ) (attempt : ℕ) : ℚ :=
  min p.max_delay (p.base_delay * 2 ^ attempt + u attempt)

/-- Observable outcome of one `execute_with_retry` run: the returned value
or propagated error (`none` only when the loop body never runs), the
number of invocations of the wrapped operation, and the slept backoffs in
order. -/
structure RunResult (E A : Type) where
  outcome : Option (Except E A)
  calls : ℕ
  sleeps : List ℚ

/-- The `for attempt in range(1, max_attempts + 1)` loop of
`execute_with_retry`, with `remaining` iterations left and `attempt` the
current attempt number. -/
def executeAux (p : RetryPolicy) (u : ℕ → ℚ) {E A : Type}
    (op : ℕ → Except E A) : ℕ → ℕ → RunResult E A
  | 0, _ => ⟨none, 0, []⟩
  | remaining + 1, attempt =>
    match op attempt with
    | .ok a => ⟨some (.ok a), 1, []⟩
    | .error e =>
      if attempt = p.max_attempts then ⟨some (.error e), 1, []⟩
      else
        let r := executeAux p u op remaining (attempt + 1)
        ⟨r.outcome, r.calls + 1, calculateBackoffTime p u attempt :: r.sleeps⟩

/-- `RetryPolicy.execute_with_retry`. -/
def executeWithRetry (p : RetryPolicy) (u : ℕ → ℚ) {E A : Type}
    (op : ℕ → Except E A) : RunResult E A :=
  executeAux p u op p.max_attempts 1

end Retry

/-! ## Router

From `src/sentinel/providers/router.py` (`Router.route`).  For one `route`
call, a provider contributes its `is_available()` answer and the outcome
(`complete` response or raised exception) it would produce if invoked. -/

namespace Router

/-- One resolved provider in the fallback chain, as seen by `route`. -/
structure Provider (E R : Type) where
  name : String
  available : Bool
  outcome : Except E R

/-- `NoProviderError` / `AllProvidersFailedError` with its error list. -/
inductive RouteError (E : Type) where
  | noProvider
  | allProvidersFailed (errors : List (String × E))
deriving DecidableEq

/-- The provider loop of `Router.route`; also returns the names of the
providers whose `complete` was invoked, in order. -/
def routeGo {E R : Type} :
    List (Provider E R) → List (String × E) → Except (RouteError E) R × List String
  | [], errors => (.error (.allProvidersFailed errors), [])
  | p :: rest, errors =>
    if p.available then
      match p.outcome with
      | .ok r => (.ok r, [p.name])
      | .error e =>
        let next := routeGo rest (errors ++ [(p.name, e)])
        (next.1, p.name :: next.2)
    else
      routeGo rest errors

/-- `Router.route` over a resolved chain: empty chain raises
`NoProviderError`, otherwise the fallback loop runs. -/
def route {E R : Type} : List (Provider E R) →
    Except (RouteError E) R × List String
  | [] => (.error .noProvider, [])
  | p :: rest => routeGo (p :: rest) []

/-- The `(name, error)` pairs a chain contributes when every available
provider fails: one per attempted-and-failed provider, in order. -/
def failurePairs {E R : Type} (chain : List (Provider E R)) :
    List (String × E) :=
  chain.filterMap (fun p =>
    if p.available then
      match p.outcome with
      | .error e => some (p.name, e)
      | .ok _ => none
    else none)

end Router

/-! ## Exact-cache key derivation

From `src/sentinel/services/cache.py` (`CacheService.generate_key`) and
its call site in `src/sentinel/api/v1/chat.py`.  The key is
`llm:` + hex SHA-256 of `json.dumps(params, sort_keys=True)`.  We model
`json.dumps` for the exact shape of `params`, emitting each object's keys
in Python's sorted order (proved sorted below), with default separators
and `ensure_ascii=True`, and implement SHA-256 itself (constants derived
from the square/cube roots of the first primes, per the standard). -/

namespace Cache

/-- Python string comparison: lexicographic on code points. -/
def pyStrLt : List Char → List Char → Bool
  | [], [] => false
  | [], _ :: _ => true
  | _ :: _, [] => false
  | a :: as, b :: bs =>
    if a.toNat < b.toNat then true
    else if b.toNat < a.toNat then false
    else pyStrLt as bs

/-- Lower-case hex digit. -/
def hexDigit (n : ℕ) : Char :=
  if n < 10 then Char.ofNat (48 + n) else Char.ofNat (87 + n)

/-- Four-digit lower-case hex, for `\uXXXX` escapes. -/
def hex4 (n : ℕ) : String :=
  String.mk [hexDigit (n / 4096 % 16), hexDigit (n / 256 % 16),
             hexDigit (n / 16 % 16), hexDigit (n % 16)]

/-- `json.dumps` escaping of one character (`ensure_ascii=True`):
two-character escapes for the JSON specials, `\uXXXX` for other control
and all non-ASCII characters, surrogate pairs beyond the BMP. -/
def escapeChar (c : Char) : String :=
  if c = '"' then "\\\""
  else if c = '\\' then "\\\\"
  else if c = '\n' then "\\n"
  else if c = '\r' then "\\r"
  else if c = '\t' then "\\t"
  else if c.toNat = 8 then "\\b"
  else if c.toNat = 12 then "\\f"
  else if c.toNat < 32 then "\\u" ++ hex4 c.toNat
  else if c.toNat < 127 then String.singleton c
  else if c.toNat ≤ 65535 then "\\u" ++ hex4 c.toNat
  else
    "\\u" ++ hex4 (55296 + (c.toNat - 65536) / 1024) ++
    "\\u" ++ hex4 (56320 + (c.toNat - 65536) % 1024)

/-- A JSON string literal of `s`. -/
def jsonStr (s : String) : String :=
  "\"" ++ String.join (s.data.map escapeChar) ++ "\""

/-- Python `repr` of a float whose value is a finite decimal (all
temperatures in scope are decimal literals), written on the exact
rational value: integer part, a dot, and the decimal expansion of the
fractional part (at least one digit, no trailing zeros). -/
def fracDigitsGo : ℕ → ℕ → ℕ → String
  | 0, _, _ => ""
  | fuel + 1, r, d =>
    if r = 0 then "" else Nat.repr (r * 10 / d) ++ fracDigitsGo fuel (r * 10 % d) d

/-- See `fracDigitsGo`. -/
def floatRepr (q : ℚ) : String :=
  let sgn := if q < 0 then "-" else ""
  let n := q.num.natAbs
  let d := q.den
  sgn ++ Nat.repr (n / d) ++ "." ++
    (if n % d = 0 then "0" else fracDigitsGo 30 (n % d) d)

/-- JSON for the `max_tokens` entry: the source stores `max_tokens or
None`, so both `None` and `0` serialize as `null`. -/
def maxTokensJson : Option ℤ → String
  | none => "null"
  | some n => if n = 0 then "null" else n.repr

/-- One `{"role": ..., "content": ...}` message dict, keys in sorted
order (`"content" < "role"`). -/
def messageJson (m : String × String) : String :=
  "\x7b\"content\": " ++ jsonStr m.2 ++ ", \"role\": " ++ jsonStr m.1 ++ "\x7d"

/-- The `messages` entry: `None` when the list is empty (source:
`[...] if messages else None`). -/
def messagesJson (messages : List (String × String)) : String :=
  if messages = [] then "null"
  else "[" ++ String.intercalate ", " (messages.map messageJson) ++ "]"

/-- `json.dumps(params, sort_keys=True)` for the `params` dict built in
`generate_key`; the four keys appear in Python's sorted order
`max_tokens < messages < model < temperature`. -/
def canonicalParamsJson (model : String) (messages : List (String × String))
    (temperature : ℚ) (max_tokens : Option ℤ) : String :=
  "\x7b\"max_tokens\": " ++ maxTokensJson max_tokens ++
  ", \"messages\": " ++ messagesJson messages ++
  ", \"model\": " ++ jsonStr model ++
  ", \"temperature\": " ++ floatRepr temperature ++ "\x7d"

/-- UTF-8 bytes of one character. -/
def utf8Char (c : Char) : List ℕ :=
  let n := c.toNat
  if n < 128 then [n]
  else if n < 2048 then [192 + n / 64, 128 + n % 64]
  else if n < 65536 then
    [224 + n / 4096, 128 + n / 64 % 64, 128 + n % 64]
  else
    [240 + n / 262144, 128 + n / 4096 % 64, 128 + n / 64 % 64, 128 + n % 64]

/-- UTF-8 encoding of a string (the `.encode()` in `generate_key`). -/
def strBytes (s : String) : List ℕ :=
  (s.data.map utf8Char).flatten

/-! ### SHA-256 -/

/-- Combine two naturals bit by bit over `fuel` binary digits. -/
def bitOp2 (f : ℕ → ℕ → ℕ) : ℕ → ℕ → ℕ → ℕ
  | 0, _, _ => 0
  | fuel + 1, a, b => f (a % 2) (b % 2) + 2 * bitOp2 f fuel (a / 2) (b / 2)

/-- 32-bit exclusive or. -/
def xor32 (a b : ℕ) : ℕ := bitOp2 (fun x y => (x + y) % 2) 32 a b

/-- 32-bit and. -/
def and32 (a b : ℕ) : ℕ := bitOp2 (fun x y => x * y) 32 a b

/-- 32-bit complement. -/
def not32 (a : ℕ) : ℕ := bitOp2 (fun x _ => 1 - x) 32 a 0

/-- Rotate a 32-bit word right by `k`. -/
def rotr (k a : ℕ) : ℕ := (a / 2 ^ k + a % 2 ^ k * 2 ^ (32 - k)) % 2 ^ 32

/-- Shift a 32-bit word right by `k`. -/
def shr (k a : ℕ) : ℕ := a / 2 ^ k

/-- Trial-division primality on `ℕ`. -/
def isPrimeB (n : ℕ) : Bool :=
  decide (2 ≤ n) && (List.range (n - 2)).all (fun k => decide (n % (k + 2) ≠ 0))

/-- The first 64 primes (2, 3, 5, …, 311). -/
def primes64 : List ℕ := ((List.range 312).filter isPrimeB).take 64

/-- Binary-search step for the integer cube root. -/
def icbrtGo (n : ℕ) : ℕ → ℕ → ℕ → ℕ
  | 0, lo, _ => lo
  | fuel + 1, lo, hi =>
    let mid := (lo + hi) / 2
    if mid = lo then lo
    else if mid ^ 3 ≤ n then icbrtGo n fuel mid hi
    else icbrtGo n fuel lo mid

/-- Integer cube root. -/
def icbrt (n : ℕ) : ℕ := icbrtGo n 200 0 (n + 1)

/-- SHA-256 round constant `i`: the first 32 fractional bits of the cube
root of the `i`-th prime. -/
def kConst (i : ℕ) : ℕ := icbrt (primes64.getD i 0 * 2 ^ 96) % 2 ^ 32

/-- SHA-256 initial hash word `i`: the first 32 fractional bits of the
square root of the `i`-th prime. -/
def hInit (i : ℕ) : ℕ := Nat.sqrt (primes64.getD i 0 * 2 ^ 64) % 2 ^ 32

/-- Big-endian byte representation of `n` in `k` bytes. -/
def bytesBE (k n : ℕ) : List ℕ :=
  (List.range k).map (fun i => n / 2 ^ (8 * (k - 1 - i)) % 256)

/-- SHA-256 padding: `0x80`, zeros to 56 mod 64, 8-byte bit length. -/
def padMessage (msg : List ℕ) : List ℕ :=
  msg ++ [128] ++ List.replicate ((119 - msg.length % 64) % 64) 0 ++
    bytesBE 8 (8 * msg.length)

/-- Big-endian 32-bit words from bytes. -/
def toWords : List ℕ → List ℕ
  | b0 :: b1 :: b2 :: b3 :: rest =>
      (((b0 * 256 + b1) * 256 + b2) * 256 + b3) :: toWords rest
  | _ => []

/-- Split `k` blocks of 16 words each off a word list. -/
def toBlocksGo : ℕ → List ℕ → List (List ℕ)
  | 0, _ => []
  | k + 1, ws => ws.take 16 :: toBlocksGo k (ws.drop 16)

/-- 16-word blocks of a word list. -/
def toBlocks (ws : List ℕ) : List (List ℕ) := toBlocksGo (ws.length / 16) ws

/-- Extend the 16-word block to the 64-word message schedule, one word
per step. -/
def extendGo : ℕ → List ℕ → List ℕ
  | 0, ws => ws
  | k + 1, ws =>
    let i := ws.length
    let w15 := ws.getD (i - 15) 0
    let w2 := ws.getD (i - 2) 0
    let s0 := xor32 (rotr 7 w15) (xor32 (rotr 18 w15) (shr 3 w15))
    let s1 := xor32 (rotr 17 w2) (xor32 (rotr 19 w2) (shr 10 w2))
    extendGo k (ws ++ [(ws.getD (i - 16) 0 + s0 + ws.getD (i - 7) 0 + s1) % 2 ^ 32])

/-- One SHA-256 compression round on the eight working registers. -/
def roundStep (w k : ℕ) : List ℕ → List ℕ
  | [a, b, c, d, e, f, g, h] =>
    let s1 := xor32 (rotr 6 e) (xor32 (rotr 11 e) (rotr 25 e))
    let ch := xor32 (and32 e f) (and32 (not32 e) g)
    let t1 := (h + s1 + ch + k + w) % 2 ^ 32
    let s0 := xor32 (rotr 2 a) (xor32 (rotr 13 a) (rotr 22 a))
    let maj := xor32 (and32 a b) (xor32 (and32 a c) (and32 b c))
    [(t1 + (s0 + maj)) % 2 ^ 32, a, b, c, (d + t1) % 2 ^ 32, e, f, g]
  | st => st

/-- Compress one 16-word block into the running hash. -/
def processBlock (h : List ℕ) (block : List ℕ) : List ℕ :=
  let ws := extendGo 48 block
  let final := (List.range 64).foldl
    (fun st i => roundStep (ws.getD i 0) (kConst i) st) h
  List.zipWith (fun x y => (x + y) % 2 ^ 32) h final

/-- SHA-256 digest (32 bytes) of a byte string. -/
def sha256Bytes (msg : List ℕ) : List ℕ :=
  (((toBlocks (toWords (padMessage msg))).foldl processBlock
      ((List.range 8).map hInit)).map (bytesBE 4)).flatten

/-- Lower-case hex of a byte string. -/
def toHex (bytes : List ℕ) : String :=
  String.join (bytes.map (fun b => String.mk [hexDigit (b / 16), hexDigit (b % 16)]))

/-- `hashlib.sha256(s.encode()).hexdigest()`. -/
def sha256hex (s : String) : String := toHex (sha256Bytes (strBytes s))

/-- `CacheService.generate_key(model, messages, temperature, max_tokens)`. -/
def generateKey (model : String) (messages : List (String × String))
    (temperature : ℚ) (max_tokens : Option ℤ) : String :=
  "llm:" ++ sha256hex (canonicalParamsJson model messages temperature max_tokens)

/-- The `generate_key` call in `create_chat_completion` (`api/v1/chat.py`):
only `(model, messages, temperature)` are passed, so `max_tokens` is its
default `None`. -/
def pipelineCacheKey (model : String) (messages : List (String × String))
    (temperature : ℚ) : String :=
  generateKey model messages temperature none

/-- A request as the spec's data model sees it: with a `max_tokens`
parameter (the API request schema itself has no such field). -/
structure PipelineRequest where
  model : String
  messages : List (String × String)
  temperature : ℚ
  max_tokens : Option ℤ

/-- The exact-cache key the pipeline computes for a request. -/
def keyOfRequest (r : PipelineRequest) : String :=
  pipelineCacheKey r.model r.messages r.temperature

/-- The canonical JSON string the pipeline's key is derived from. -/
def jsonOfRequest (r : PipelineRequest) : String :=
  canonicalParamsJson r.model r.messages r.temperature none

end Cache

/-! ## Vector store

From `src/sentinel/services/vector_store.py`.  The faiss `IndexFlatIP`
holds the added embeddings by insertion position and returns the top-1
match by inner product (ties to the lower position); `remove` deletes
only the metadata entry, so the index may hold positions without
metadata.  `search` resolves a missing explicit threshold through
`get_settings().semantic_cache_threshold` — but `Settings` in
`core/config.py` defines no `semantic_cache_threshold` field, so that
attribute access raises `AttributeError`, modelled as an error value. -/

namespace Store

/-- The `AttributeError` raised by `get_settings().semantic_cache_threshold`
(no such field exists on `Settings`). -/
inductive SearchError where
  | missingSemanticCacheThreshold
deriving DecidableEq

/-- The `VectorStore` object state. -/
structure VectorStore (Meta : Type) where
  index : List (List ℚ)
  metadata : List (ℕ × Meta)
  next_position : ℕ

/-- Inner product of two embedding vectors. -/
def innerProduct (x y : List ℚ) : ℚ := (List.zipWith (fun a b => a * b) x y).sum

/-- `VectorStore.add`. -/
def add {Meta : Type} (vs : VectorStore Meta) (embedding : List ℚ)
    (meta : Meta) : VectorStore Meta × ℕ :=
  ({ index := vs.index ++ [embedding],
     metadata := vs.metadata ++ [(vs.next_position, meta)],
     next_position := vs.next_position + 1 }, vs.next_position)

/-- Python dict membership/lookup on the `_metadata` dict. -/
def lookupMeta {Meta : Type} : List (ℕ × Meta) → ℕ → Option Meta
  | [], _ => none
  | (k, m) :: rest, i => if k = i then some m else lookupMeta rest i

/-- faiss `IndexFlatIP.search(x, 1)` scan: best (position, score) by
inner product, first maximum (lowest position) on ties. -/
def bestGo (q : List ℚ) : List (List ℚ) → ℕ → ℕ × ℚ → ℕ × ℚ
  | [], _, acc => acc
  | e :: rest, i, acc =>
    if acc.2 < innerProduct e q then bestGo q rest (i + 1) (i, innerProduct e q)
    else bestGo q rest (i + 1) acc

/-- `VectorStore.search`: threshold resolution (raising when the config
field is missing), empty-store check, top-1 scan, threshold test,
metadata lookup. -/
def search {Meta : Type} (vs : VectorStore Meta) (q : List ℚ)
    (threshold : Option ℚ) : Except SearchError (Option (Meta × ℚ)) :=
  match threshold with
  | none => .error .missingSemanticCacheThreshold
  | some t =>
    match vs.index with
    | [] => .ok none
    | e0 :: rest =>
      let best := bestGo q rest 1 (0, innerProduct e0 q)
      if best.2 < t then .ok none
      else
        match lookupMeta vs.metadata best.1 with
        | none => .ok none
        | some m => .ok (some (m, best.2))

end Store

/-! ## PII shield

From `src/sentinel/shield/pii_shield.py` (and `PIIType` from
`domain/models.py`).  The Presidio analyzer is external (the spec treats
it as an opaque `detect(text) -> entities`), so detection is an oracle
parameter; texts are lists of characters with Python character offsets.
Python `sorted(..., key=lambda x: x[0], reverse=True)` is a stable sort
by descending start offset, embedded as an insertion sort (any two stable
sorts under the same key agree). -/

namespace PII

/-- `PIIType` enum values (`domain/models.py`). -/
inductive PIIType where
  | email
  | phone
  | ssn
  | credit_card
  | name
  | address
  | ip_address
  | other
deriving DecidableEq

/-- The `.value` string of a `PIIType`. -/
def typeValue : PIIType → String
  | .email => "email"
  | .phone => "phone"
  | .ssn => "ssn"
  | .credit_card => "credit_card"
  | .name => "name"
  | .address => "address"
  | .ip_address => "ip_address"
  | .other => "other"

/-- Python `str.upper()` on the ASCII type values. -/
def upperChar (c : Char) : Char :=
  if 97 ≤ c.toNat ∧ c.toNat ≤ 122 then Char.ofNat (c.toNat - 32) else c

/-- A detected PII span: `(start, end, type)` as `_redact_text` uses it. -/
structure Finding where
  start : ℕ
  end_ : ℕ
  type : PIIType
deriving DecidableEq

/-- The replacement text `[TYPE]` (uppercased type value). -/
def tagChars (t : PIIType) : List Char :=
  '[' :: ((typeValue t).data.map upperChar ++ [']'])

/-- One replacement step of `_redact_text`:
`text[:start] + f"[{pii_type.upper()}]" + text[end:]`. -/
def applyOne (text : List Char) (f : Finding) : List Char :=
  text.take f.start ++ tagChars f.type ++ text.drop f.end_

/-- `PIIShield._redact_text`: apply every finding, sorted by start
offset descending (stable), right to left. -/
def redactText (text : List Char) (findings : List Finding) : List Char :=
  (findings.insertionSort (fun a b => b.start ≤ a.start)).foldl applyOne text

/-- Well-formed finding lists as `_redact_text` receives them in the
pipeline, written right to left: starts non-increasing, spans within
`hi`, pairwise disjoint (each later span ends at or before the earlier
span's start). -/
def DescWF (hi : ℕ) : List Finding → Prop
  | [] => True
  | f :: rest => f.start ≤ f.end_ ∧ f.end_ ≤ hi ∧ DescWF f.start rest

/-- What the spec describes: each span becomes `[TYPE]` and the text
outside the spans is untouched, span by span from the right. -/
def specDesc (text : List Char) : List Finding → List Char
  | [] => text
  | f :: rest => specDesc (text.take f.start) rest ++ tagChars f.type ++
      text.drop f.end_

/-- `PIIAction` enum from the source. -/
inductive PIIAction where
  | block
  | redact
  | warn
deriving DecidableEq

/-- `PIIResult` dataclass. -/
structure PIIResult where
  action : PIIAction
  findings : List Finding
  processed_text : Option (List Char)
  should_block : Bool

/-- Python `not content.strip()`. -/
def isBlank (s : List Char) : Bool := s.all (fun c => c.isWhitespace)

/-- `PIIDetector.detect_in_messages`: indices with non-blank string
content and non-empty findings (detection itself is the opaque
analyzer). -/
def detectInMessages (detect : List Char → List Finding)
    (messages : List (String × String)) : List (ℕ × List Finding) :=
  (messages.enum).filterMap (fun im =>
    if isBlank im.2.2.data then none
    else
      match detect im.2.2.data with
      | [] => none
      | fs => some (im.1, fs))

/-- `PIIShield.scan_messages`. -/
def scanMessages (detect : List Char → List Finding) (action : PIIAction)
    (messages : List (String × String)) : List (ℕ × PIIResult) :=
  (detectInMessages detect messages).map (fun ifs =>
    (ifs.1,
     { action := action
       findings := ifs.2
       processed_text :=
         if action = .redact then
           some (redactText (((messages.get? ifs.1).map Prod.snd).getD "").data
             ifs.2)
         else none
       should_block := action = .block }))

/-- Python dict lookup on the `scan_messages` result. -/
def lookupResult : List (ℕ × PIIResult) → ℕ → Option PIIResult
  | [], _ => none
  | (k, r) :: rest, i => if k = i then some r else lookupResult rest i

/-- The message rewrite in `create_chat_completion` when the action is
`REDACT`: replace each message whose index has a result with a non-`None`
`processed_text`, keeping its role. -/
def applyRedactionToMessages (messages : List (String × String))
    (results : List (ℕ × PIIResult)) : List (String × String) :=
  messages.enum.map (fun im =>
    match lookupResult results im.1 with
    | some r =>
      match r.processed_text with
      | some t => (im.2.1, String.mk t)
      | none => im.2
    | none => im.2)

end PII

/-! ## Chat-completion pipeline

From `create_chat_completion` in `src/sentinel/api/v1/chat.py`
(non-streaming path).  Each stage is present when configured (`None`
checks in the source); the detector, analyzer, caches and router are
abstracted as oracles for the decisions they feed back to the pipeline.
The run produces the response and the ordered trace of stage
executions — `semanticLookup` and `exactLookup` record the query string
and cache key actually used. -/

namespace Pipeline

/-- One executed pipeline stage, with the data it was given. -/
inductive Event where
  | rateLimit
  | piiScan
  | injectionScan
  | semanticLookup (query : String)
  | exactLookup (key : String)
  | routerDispatch
deriving DecidableEq

/-- Coarse classification of the pipeline's outcome. -/
inductive Response where
  | rateLimited
  | blockedPII
  | blockedInjection
  | fromSemanticCache (s : String)
  | fromExactCache
  | fromRouter
  | mockFallback
deriving DecidableEq

/-- The configured stages on `app.state`, as the pipeline consults them:
`none` means the stage is absent and skipped. -/
structure Stages where
  rateLimiterAllowed : Option Bool
  piiShield : Option (PII.PIIAction × (List Char → List PII.Finding))
  injectionScan : Option (List (String × String) → Injection.InjectionAction)
  semanticLookup : Option (String → Option String)
  exactCacheHit : Option (String → Bool)
  routerPresent : Bool

/-- Router dispatch / mock fallback (end of the non-streaming path). -/
def continueRouter (st : Stages) (trace : List Event) :
    Response × List Event :=
  if st.routerPresent then (.fromRouter, trace ++ [.routerDispatch])
  else (.mockFallback, trace)

/-- Exact-cache stage: key from the *current* (post-PII) messages. -/
def continueExact (st : Stages) (model : String) (temperature : ℚ)
    (messages : List (String × String)) (trace : List Event) :
    Response × List Event :=
  match st.exactCacheHit with
  | none => continueRouter st trace
  | some hit =>
    let key := Cache.pipelineCacheKey model messages temperature
    if hit key then (.fromExactCache, trace ++ [.exactLookup key])
    else continueRouter st (trace ++ [.exactLookup key])

/-- Semantic-cache stage: looks up `chat_request.messages[-1].content`
of the current (post-PII) message list. -/
def continueSemantic (st : Stages) (model : String) (temperature : ℚ)
    (messages : List (String × String)) (trace : List Event) :
    Response × List Event :=
  match st.semanticLookup with
  | none => continueExact st model temperature messages trace
  | some look =>
    let q := (messages.getLast?.map Prod.snd).getD ""
    match look q with
    | some s => (.fromSemanticCache s, trace ++ [.semanticLookup q])
    | none => continueExact st model temperature messages
        (trace ++ [.semanticLookup q])

/-- Injection stage: `BLOCK` raises 400, otherwise continue. -/
def continueInjection (st : Stages) (model : String) (temperature : ℚ)
    (messages : List (String × String)) (trace : List Event) :
    Response × List Event :=
  match st.injectionScan with
  | none => continueSemantic st model temperature messages trace
  | some scan =>
    match scan messages with
    | .block => (.blockedInjection, trace ++ [.injectionScan])
    | _ => continueSemantic st model temperature messages
        (trace ++ [.injectionScan])

/-- PII stage: scan; on findings, block when the action is `BLOCK`
(`should_block`), rewrite the message list when it is `REDACT`. -/
def continuePII (st : Stages) (model : String) (temperature : ℚ)
    (messages : List (String × String)) (trace : List Event) :
    Response × List Event :=
  match st.piiShield with
  | none => continueInjection st model temperature messages trace
  | some (action, detect) =>
    let results := PII.scanMessages detect action messages
    match results with
    | [] => continueInjection st model temperature messages
        (trace ++ [.piiScan])
    | _ =>
      if action = .block then (.blockedPII, trace ++ [.piiScan])
      else
        let messages2 :=
          if action = .redact then
            PII.applyRedactionToMessages messages results
          else messages
        continueInjection st model temperature messages2
          (trace ++ [.piiScan])

/-- The non-streaming `create_chat_completion` pipeline: `none` when
`messages[-1]` at ingress raises (empty list), otherwise the staged run
rate limit → PII → injection → semantic cache → exact cache → router. -/
def pipeline (st : Stages) (model : String) (temperature : ℚ)
    (messages : List (String × String)) :
    Option (Response × List Event) :=
  match messages.getLast? with
  | none => none
  | some _ =>
    match st.rateLimiterAllowed with
    | none => some (continuePII st model temperature messages [])
    | some false => some (.rateLimited, [.rateLimit])
    | some true => some (continuePII st model temperature messages [.rateLimit])

end Pipeline

/-! ## General lemmas -/

theorem roundHalfEven_intCast (n : ℤ) : roundHalfEven (n : ℚ) = n := by
  unfold roundHalfEven
  rw [Int.floor_intCast]
  simp

/-- `round4` is the identity on rationals with at most 4 decimal places. -/
theorem round4_eq_self {q : ℚ} (h : ∃ n : ℤ, q * 10000 = (n : ℚ)) :
    round4 q = q := by
  obtain ⟨n, hn⟩ := h
  unfold round4
  rw [hn, roundHalfEven_intCast, ← hn]
  field_simp

namespace Injection

theorem combineScores_singleton (w : ℚ) :
    combineScores [w] = Sentinel.round4 w := by
  unfold combineScores
  rw [if_neg (by simp)]
  norm_num

end Injection

namespace Breaker

theorem afterFailures_count (cb : CircuitBreaker) (times : List ℚ) :
    (afterFailures cb times).failure_count = cb.failure_count + times.length := by
  induction times generalizing cb with
  | nil => simp [afterFailures]
  | cons t ts ih =>
      simp only [afterFailures, List.foldl_cons, List.length_cons] at *
      rw [ih]
      unfold recordFailure
      dsimp only
      split <;> simp <;> omega

theorem afterFailures_threshold (cb : CircuitBreaker) (times : List ℚ) :
    (afterFailures cb times).failure_threshold = cb.failure_threshold := by
  induction times generalizing cb with
  | nil => rfl
  | cons t ts ih =>
      simp only [afterFailures, List.foldl_cons] at *
      rw [ih]
      unfold recordFailure
      dsimp only
      split <;> rfl

theorem afterFailures_timeout (cb : CircuitBreaker) (times : List ℚ) :
    (afterFailures cb times).recovery_timeout = cb.recovery_timeout := by
  induction times generalizing cb with
  | nil => rfl
  | cons t ts ih =>
      simp only [afterFailures, List.foldl_cons] at *
      rw [ih]
      unfold recordFailure
      dsimp only
      split <;> rfl

theorem afterFailures_last (cb : CircuitBreaker) (times : List ℚ)
    (h : times ≠ []) :
    (afterFailures cb times).last_failure_time = times.getLast h := by
  induction times generalizing cb with
  | nil => exact absurd rfl h
  | cons t ts ih =>
      cases ts with
      | nil =>
          simp only [afterFailures, List.foldl_cons, List.foldl_nil,
            List.getLast_singleton]
          unfold recordFailure
          dsimp only
          split <;> rfl
      | cons t2 ts2 =>
          simp only [afterFailures, List.foldl_cons] at *
          rw [ih _ (by simp)]
          simp [List.getLast_cons]

theorem afterFailures_state_open (cb : CircuitBreaker) (times : List ℚ)
    (hne : times ≠ [])
    (hcount : cb.failure_threshold ≤ cb.failure_count + times.length) :
    (afterFailures cb times).state = .open_ := by
  induction times generalizing cb with
  | nil => exact absurd rfl hne
  | cons t ts ih =>
      cases ts with
      | nil =>
          simp only [afterFailures, List.foldl_cons, List.foldl_nil]
          unfold recordFailure
          dsimp only
          rw [if_pos (by simpa using hcount)]
      | cons t2 ts2 =>
          simp only [afterFailures, List.foldl_cons]
          have := ih (recordFailure cb t) (by simp)
          simp only [afterFailures] at this
          apply this
          have hc : (recordFailure cb t).failure_count = cb.failure_count + 1 := by
            unfold recordFailure
            dsimp only
            split <;> rfl
          have ht : (recordFailure cb t).failure_threshold = cb.failure_threshold := by
            unfold recordFailure
            dsimp only
            split <;> rfl
          rw [hc, ht]
          simp only [List.length_cons] at hcount ⊢
          omega

theorem inv_init (ft : ℕ) (rt : ℚ) : Inv ft (init ft rt) := by
  refine ⟨rfl, fun h => absurd rfl h⟩

theorem inv_step {ft : ℕ} {cb : CircuitBreaker} (h : Inv ft cb) (op : Op) :
    Inv ft (step cb op) := by
  obtain ⟨hft, hcount⟩ := h
  cases op with
  | canExec now =>
      simp only [step, canExecute]
      split
      · split
        · exact ⟨hft, fun _ => hcount (by simp_all)⟩
        · exact ⟨hft, hcount⟩
      · exact ⟨hft, hcount⟩
  | success =>
      exact ⟨hft, fun h => absurd rfl h⟩
  | failure now =>
      simp only [step]
      unfold recordFailure
      dsimp only
      split
      · next hcond =>
          refine ⟨hft, fun _ => ?_⟩
          dsimp only
          omega
      · refine ⟨hft, fun hst => ?_⟩
        have := hcount hst
        dsimp only
        omega
  | doReset =>
      exact ⟨hft, fun h => absurd rfl h⟩

theorem inv_runOps {ft : ℕ} {cb : CircuitBreaker} (h : Inv ft cb)
    (ops : List Op) : Inv ft (runOps cb ops) := by
  induction ops generalizing cb with
  | nil => exact h
  | cons op ops ih =>
      simpa [runOps] using ih (inv_step h op)

end Breaker

namespace Retry

theorem executeAux_calls_le (p : RetryPolicy) (u : ℕ → ℚ) {E A : Type}
    (op : ℕ → Except E A) (remaining attempt : ℕ) :
    (executeAux p u op remaining attempt).calls ≤ remaining := by
  induction remaining generalizing attempt with
  | zero => exact le_refl 0
  | succ r ih =>
      unfold executeAux
      cases op attempt with
      | ok a => exact Nat.le_add_left 1 r
      | error e =>
          dsimp only
          by_cases hc : attempt = p.max_attempts
          · rw [if_pos hc]
            exact Nat.le_add_left 1 r
          · rw [if_neg hc]
            exact Nat.succ_le_succ (ih (attempt + 1))

theorem executeAux_first_success (p : RetryPolicy) (u : ℕ → ℚ) {E A : Type}
    (op : ℕ → Except E A) (remaining attempt n : ℕ) (a : A)
    (hinv : attempt + remaining = p.max_attempts + 1)
    (hlo : attempt ≤ n) (hhi : n ≤ p.max_attempts)
    (hok : op n = .ok a)
    (hfail : ∀ m, attempt ≤ m → m < n → ∃ e, op m = .error e) :
    (executeAux p u op remaining attempt).outcome = some (.ok a) ∧
    (executeAux p u op remaining attempt).calls = n - attempt + 1 := by
  induction remaining generalizing attempt with
  | zero => omega
  | succ r ih =>
      unfold executeAux
      by_cases hn : attempt = n
      · subst hn
        rw [hok]
        exact ⟨rfl, by dsimp only; omega⟩
      · obtain ⟨e, he⟩ := hfail attempt (le_refl _) (by omega)
        rw [he]
        dsimp only
        rw [if_neg (by omega)]
        have h := ih (attempt + 1) (by omega) (by omega)
          (fun m hm1 hm2 => hfail m (by omega) hm2)
        refine ⟨h.1, ?_⟩
        dsimp only
        rw [h.2]
        omega

theorem executeAux_all_fail (p : RetryPolicy) (u : ℕ → ℚ) {E A : Type}
    (op : ℕ → Except E A) (remaining attempt : ℕ) (e : E)
    (hinv : attempt + remaining = p.max_attempts + 1)
    (hrem : 1 ≤ remaining)
    (hfail : ∀ m, attempt ≤ m → m ≤ p.max_attempts → ∃ e0, op m = .error e0)
    (hlast : op p.max_attempts = .error e) :
    (executeAux p u op remaining attempt).outcome = some (.error e) := by
  induction remaining generalizing attempt with
  | zero => omega
  | succ r ih =>
      unfold executeAux
      by_cases hend : attempt = p.max_attempts
      · subst hend
        rw [hlast]
        dsimp only
        rw [if_pos rfl]
      · obtain ⟨e0, he0⟩ := hfail attempt (le_refl _) (by omega)
        rw [he0]
        dsimp only
        rw [if_neg hend]
        exact ih (attempt + 1) (by omega) (by omega)
          (fun m hm1 hm2 => hfail m (by omega) hm2)

theorem executeAux_sleeps (p : RetryPolicy) (u : ℕ → ℚ) {E A : Type}
    (op : ℕ → Except E A) (remaining attempt : ℕ)
    (hinv : attempt + remaining = p.max_attempts + 1) :
    ∃ k, k ≤ remaining - 1 ∧
      (executeAux p u op remaining attempt).sleeps =
        (List.range' attempt k).map (calculateBackoffTime p u) := by
  induction remaining generalizing attempt with
  | zero => exact ⟨0, le_refl 0, rfl⟩
  | succ r ih =>
      unfold executeAux
      cases hop : op attempt with
      | ok a => exact ⟨0, Nat.zero_le _, rfl⟩
      | error e =>
          dsimp only
          by_cases hc : attempt = p.max_attempts
          · rw [if_pos hc]
            exact ⟨0, Nat.zero_le _, rfl⟩
          · rw [if_neg hc]
            obtain ⟨k, hk, hsl⟩ := ih (attempt + 1) (by omega)
            refine ⟨k + 1, by omega, ?_⟩
            show calculateBackoffTime p u attempt ::
              (executeAux p u op r (attempt + 1)).sleeps = _
            rw [hsl, List.range'_succ, List.map_cons]

end Retry

namespace Router

theorem routeGo_all_fail {E R : Type} (chain : List (Provider E R))
    (errors : List (String × E))
    (h : ∀ p ∈ chain, p.available = true → ∃ e, p.outcome = .error e) :
    routeGo chain errors =
      (.error (.allProvidersFailed (errors ++ failurePairs chain)),
       (chain.filter (fun p => p.available)).map (fun p => p.name)) := by
  induction chain generalizing errors with
  | nil => simp [routeGo, failurePairs]
  | cons p rest ih =>
      by_cases hav : p.available
      · obtain ⟨e, he⟩ := h p (by simp) hav
        unfold routeGo
        rw [if_pos hav, he]
        dsimp only
        rw [ih _ (fun q hq => h q (by simp [hq]))]
        unfold failurePairs
        simp [hav, he, List.filter_cons, List.append_assoc]
      · unfold routeGo
        rw [if_neg hav, ih _ (fun q hq => h q (by simp [hq]))]
        unfold failurePairs
        simp [hav, List.filter_cons]

theorem routeGo_first_success {E R : Type} (pre : List (Provider E R))
    (p : Provider E R) (post : List (Provider E R))
    (errors : List (String × E)) (r : R)
    (hav : p.available = true) (hok : p.outcome = .ok r)
    (hpre : ∀ q ∈ pre, q.available = true → ∃ e, q.outcome = .error e) :
    routeGo (pre ++ p :: post) errors =
      (.ok r, (pre.filter (fun q => q.available)).map (fun q => q.name) ++
        [p.name]) := by
  induction pre generalizing errors with
  | nil =>
      simp only [List.nil_append, List.filter_nil, List.map_nil]
      unfold routeGo
      rw [if_pos hav, hok]
  | cons q qs ih =>
      by_cases hq : q.available
      · obtain ⟨e, he⟩ := hpre q (by simp) hq
        show routeGo (q :: (qs ++ p :: post)) errors = _
        unfold routeGo
        rw [if_pos hq, he]
        dsimp only
        rw [ih _ (fun q2 hq2 => hpre q2 (by simp [hq2]))]
        simp [hq, List.filter_cons]
      · show routeGo (q :: (qs ++ p :: post)) errors = _
        unfold routeGo
        rw [if_neg hq, ih _ (fun q2 hq2 => hpre q2 (by simp [hq2]))]
        simp [hq, List.filter_cons]

theorem failurePairs_all_skipped {E R : Type} (chain : List (Provider E R))
    (h : ∀ p ∈ chain, p.available = false) : failurePairs chain = [] := by
  induction chain with
  | nil => rfl
  | cons p rest ih =>
      unfold failurePairs at *
      rw [List.filterMap_cons]
      rw [h p (by simp)]
      exact ih (fun q hq => h q (by simp [hq]))

theorem filter_all_skipped {E R : Type} (chain : List (Provider E R))
    (h : ∀ p ∈ chain, p.available = false) :
    chain.filter (fun p => p.available) = [] := by
  rw [List.filter_eq_nil_iff]
  intro p hp
  simp [h p hp]

theorem route_ne_nil {E R : Type} (chain : List (Provider E R))
    (h : chain ≠ []) : route chain = routeGo chain [] := by
  cases chain with
  | nil => exact absurd rfl h
  | cons p rest => rfl

end Router

namespace Store

theorem bestGo_spec {q : List ℚ} (full : List (List ℚ)) :
    ∀ (l : List (List ℚ)) (i0 : ℕ) (acc : ℕ × ℚ),
      (∀ j, j < l.length → full.get? (i0 + j) = l.get? j) →
      (∃ e, full.get? acc.1 = some e ∧ innerProduct e q = acc.2) →
      ∃ e, full.get? (bestGo q l i0 acc).1 = some e ∧
        innerProduct e q = (bestGo q l i0 acc).2 := by
  intro l
  induction l with
  | nil => intro i0 acc _ hacc; exact hacc
  | cons e rest ih =>
      intro i0 acc hcov hacc
      unfold bestGo
      split
      · apply ih (i0 + 1)
        · intro j hj
          have h2 := hcov (j + 1) (by simpa using Nat.succ_lt_succ hj)
          have h3 : i0 + 1 + j = i0 + (j + 1) := by omega
          rw [h3]
          simpa using h2
        · refine ⟨e, ?_, rfl⟩
          have := hcov 0 (by simp)
          simpa using this
      · apply ih (i0 + 1)
        · intro j hj
          have h2 := hcov (j + 1) (by simpa using Nat.succ_lt_succ hj)
          have h3 : i0 + 1 + j = i0 + (j + 1) := by omega
          rw [h3]
          simpa using h2
        · exact hacc

end Store

namespace PII

theorem descwf_mono {hi hi2 : ℕ} {l : List Finding} (hle : hi ≤ hi2)
    (h : DescWF hi l) : DescWF hi2 l := by
  cases l with
  | nil => trivial
  | cons f rest => exact ⟨h.1, le_trans h.2.1 hle, h.2.2⟩

theorem descwf_le {hi : ℕ} {l : List Finding} (h : DescWF hi l) :
    ∀ g ∈ l, g.start ≤ g.end_ ∧ g.end_ ≤ hi := by
  induction l generalizing hi with
  | nil => intro g hg; cases hg
  | cons f rest ih =>
      intro g hg
      rcases List.mem_cons.mp hg with rfl | hg2
      · exact ⟨h.1, h.2.1⟩
      · have := ih h.2.2 g hg2
        exact ⟨this.1, le_trans this.2 (le_trans h.1 h.2.1)⟩

theorem descwf_pairwise {hi : ℕ} {l : List Finding} (h : DescWF hi l) :
    l.Pairwise (fun a b => b.start ≤ a.start) := by
  induction l generalizing hi with
  | nil => exact List.Pairwise.nil
  | cons f rest ih =>
      refine List.Pairwise.cons ?_ (ih h.2.2)
      intro g hg
      have := descwf_le h.2.2 g hg
      exact le_trans this.1 this.2

theorem sortDesc_eq {hi : ℕ} {l : List Finding} (h : DescWF hi l) :
    l.insertionSort (fun a b => b.start ≤ a.start) = l :=
  List.Sorted.insertionSort_eq (descwf_pairwise h)

theorem applyOne_append {pre suf : List Char} {f : Finding}
    (h1 : f.start ≤ f.end_) (h2 : f.end_ ≤ pre.length) :
    applyOne (pre ++ suf) f = applyOne pre f ++ suf := by
  unfold applyOne
  rw [List.take_append_of_le_length (le_trans h1 h2),
      List.drop_append_of_le_length h2]
  simp [List.append_assoc]

theorem foldl_applyOne_append {l : List Finding} :
    ∀ {pre suf : List Char}, DescWF pre.length l →
    List.foldl applyOne (pre ++ suf) l = List.foldl applyOne pre l ++ suf := by
  induction l with
  | nil => intro pre suf _; rfl
  | cons f rest ih =>
      intro pre suf h
      rw [List.foldl_cons, List.foldl_cons,
          applyOne_append h.1 h.2.1]
      apply ih
      apply descwf_mono _ h.2.2
      unfold applyOne
      rw [List.length_append, List.length_append,
          List.length_take]
      have : min f.start pre.length = f.start :=
        min_eq_left (le_trans h.1 h.2.1)
      rw [this]
      omega

theorem foldl_applyOne_spec {l : List Finding} :
    ∀ {text : List Char}, DescWF text.length l →
    List.foldl applyOne text l = specDesc text l := by
  induction l with
  | nil => intro text _; rfl
  | cons f rest ih =>
      intro text h
      rw [List.foldl_cons]
      have hpre : (text.take f.start).length = f.start := by
        rw [List.length_take]
        exact min_eq_left (le_trans h.1 h.2.1)
      have hsplit : applyOne text f =
          text.take f.start ++ (tagChars f.type ++ text.drop f.end_) := by
        unfold applyOne
        rw [List.append_assoc]
      rw [hsplit, foldl_applyOne_append (by rw [hpre]; exact h.2.2)]
      rw [ih (by rw [hpre]; exact h.2.2)]
      show _ = specDesc (text.take f.start) rest ++ tagChars f.type ++
        text.drop f.end_
      rw [List.append_assoc]

theorem applyRedaction_nil (messages : List (String × String)) :
    applyRedactionToMessages messages [] = messages := by
  unfold applyRedactionToMessages
  simp only [lookupResult]
  simpa using List.enum_map_snd messages

end PII

/-- C2: lifecycle of a breaker with parameters `(ft, rt)`: after `ft`
consecutive `record_failure` calls (at times `times`, `ft ≥ 1`) the state is
`open` and `can_execute(now)` is `false` (state unchanged) whenever
`now − last_failure_time ≤ rt`; when `now − last_failure_time > rt`, the
call returns `true` and moves the state to `half_open`; from `half_open`,
`record_success` resets the count to 0 and closes, while `record_failure`
reopens and updates `last_failure_time`. -/
theorem circuit_breaker_lifecycle (ft : ℕ) (rt : ℚ) (times : List ℚ)
    (hne : times ≠ []) (hlen : times.length = ft) :
    (Breaker.afterFailures (Breaker.init ft rt) times).state = .open_ ∧
    (Breaker.afterFailures (Breaker.init ft rt) times).last_failure_time =
      times.getLast hne ∧
    (∀ now : ℚ, now - times.getLast hne ≤ rt →
      Breaker.canExecute (Breaker.afterFailures (Breaker.init ft rt) times) now =
        (false, Breaker.afterFailures (Breaker.init ft rt) times)) ∧
    (∀ now : ℚ, rt < now - times.getLast hne →
      Breaker.canExecute (Breaker.afterFailures (Breaker.init ft rt) times) now =
        (true, { Breaker.afterFailures (Breaker.init ft rt) times with
                   state := .halfOpen })) ∧
    (Breaker.recordSuccess
        { Breaker.afterFailures (Breaker.init ft rt) times with
            state := .halfOpen } =
      { Breaker.afterFailures (Breaker.init ft rt) times with
          failure_count := 0, state := .closed }) ∧
    (∀ t : ℚ,
      (Breaker.recordFailure
          { Breaker.afterFailures (Breaker.init ft rt) times with
              state := .halfOpen } t).state = .open_ ∧
      (Breaker.recordFailure
          { Breaker.afterFailures (Breaker.init ft rt) times with
              state := .halfOpen } t).last_failure_time = t) := by
  set cb := Breaker.afterFailures (Breaker.init ft rt) times with hcb
  have hstate : cb.state = .open_ := by
    apply Breaker.afterFailures_state_open
    · exact hne
    · simp [Breaker.init, hlen]
  have hlast : cb.last_failure_time = times.getLast hne :=
    Breaker.afterFailures_last _ _ hne
  have htimeout : cb.recovery_timeout = rt := by
    rw [hcb, Breaker.afterFailures_timeout]
    rfl
  have hcount : cb.failure_count = ft := by
    rw [hcb, Breaker.afterFailures_count]
    simp [Breaker.init, hlen]
  have hthresh : cb.failure_threshold = ft := by
    rw [hcb, Breaker.afterFailures_threshold]
    rfl
  refine ⟨hstate, hlast, ?_, ?_, ?_, ?_⟩
  · intro now hnow
    unfold Breaker.canExecute
    rw [if_pos hstate, if_neg]
    rw [htimeout, hlast]
    exact not_lt.mpr hnow
  · intro now hnow
    unfold Breaker.canExecute
    rw [if_pos hstate, if_pos]
    rw [htimeout, hlast]
    exact hnow
  · rfl
  · intro t
    unfold Breaker.recordFailure
    dsimp only
    rw [if_pos (by omega)]
    exact ⟨rfl, rfl⟩

/-- Witness for `circuit_breaker_lifecycle` at `ft = 3`, `rt = 30`,
failure times `[1, 2, 3]`, probing `can_execute` at `now = 20` and
`now = 50`. -/
theorem circuit_breaker_lifecycle_witness :
    (Breaker.afterFailures (Breaker.init 3 30) [1, 2, 3]).state = .open_ ∧
    (Breaker.canExecute (Breaker.afterFailures (Breaker.init 3 30) [1, 2, 3])
        20).1 = false ∧
    (Breaker.canExecute (Breaker.afterFailures (Breaker.init 3 30) [1, 2, 3])
        50).1 = true ∧
    ((Breaker.canExecute (Breaker.afterFailures (Breaker.init 3 30) [1, 2, 3])
        50).2).state = .halfOpen := by
  have h := circuit_breaker_lifecycle 3 30 [1, 2, 3] (by simp) rfl
  refine ⟨h.1, ?_, ?_, ?_⟩
  · rw [h.2.2.1 20 (by norm_num [List.getLast])]
  · rw [h.2.2.2.1 50 (by norm_num [List.getLast])]
  · rw [h.2.2.2.1 50 (by norm_num [List.getLast])]

/-- C10: in every breaker state reachable from a fresh breaker by any
sequence of `can_execute` / `record_success` / `record_failure` / `reset`
calls, `state = half_open` implies `failure_count ≥ failure_threshold`,
and hence a single `record_failure` during a half-open trial returns the
breaker to `open`. -/
theorem half_open_failure_count_invariant (ft : ℕ) (rt : ℚ)
    (ops : List Breaker.Op)
    (h : (Breaker.runOps (Breaker.init ft rt) ops).state = .halfOpen) :
    ft ≤ (Breaker.runOps (Breaker.init ft rt) ops).failure_count ∧
    (∀ t : ℚ,
      (Breaker.recordFailure (Breaker.runOps (Breaker.init ft rt) ops) t).state =
        .open_) := by
  have hinv := Breaker.inv_runOps (Breaker.inv_init ft rt) ops
  have hcount := hinv.2 (by rw [h]; simp)
  refine ⟨hcount, fun t => ?_⟩
  unfold Breaker.recordFailure
  dsimp only
  rw [if_pos]
  dsimp only
  rw [hinv.1]
  omega

/-- Witness for `half_open_failure_count_invariant`: with threshold 1 and
timeout 30, one failure at time 0 then `can_execute` at time 100 reaches
`half_open` with the count still at the threshold. -/
theorem half_open_failure_count_invariant_witness :
    (Breaker.runOps (Breaker.init 1 30) [.failure 0, .canExec 100]).state =
      .halfOpen ∧
    1 ≤ (Breaker.runOps (Breaker.init 1 30)
          [.failure 0, .canExec 100]).failure_count ∧
    (Breaker.recordFailure
        (Breaker.runOps (Breaker.init 1 30) [.failure 0, .canExec 100])
        7).state = .open_ := by
  have hrun : Breaker.runOps (Breaker.init 1 30) [.failure 0, .canExec 100] =
      { failure_threshold := 1, recovery_timeout := 30, failure_count := 1,
        last_failure_time := 0, state := .halfOpen } := by
    show (Breaker.canExecute
        (Breaker.recordFailure (Breaker.init 1 30) 0) 100).2 = _
    have h1 : Breaker.recordFailure (Breaker.init 1 30) 0 =
        { failure_threshold := 1, recovery_timeout := 30, failure_count := 1,
          last_failure_time := 0, state := .open_ } := by
      unfold Breaker.recordFailure Breaker.init
      norm_num
    rw [h1]
    unfold Breaker.canExecute
    norm_num
  have h := half_open_failure_count_invariant 1 30 [.failure 0, .canExec 100]
    (by rw [hrun])
  exact ⟨by rw [hrun], h.1, h.2 7⟩

/-- Counterexample to C1: the pipeline builds the detector from
`InjectionSettings`, whose `warn_threshold` default is `0.7`, not `0.3`;
a scan whose single matched rule has weight `0.5` reports score `0.5` and
action `PASS`, where the claim (warn at any score `≥ 0.3`) demands `WARN`. -/
theorem injection_warn_threshold_counterexample :
    Injection.settingsWarnThreshold ≠ 3/10 ∧
    Injection.pipelineScanOutcome [1/2] = (1/2, .pass) := by
  constructor
  · norm_num [Injection.settingsWarnThreshold]
  · have hc : Injection.combineScores [1/2] = 1/2 := by
      rw [Injection.combineScores_singleton]
      exact round4_eq_self ⟨5000, by norm_num⟩
    unfold Injection.pipelineScanOutcome Injection.scanOutcome
    rw [if_neg (by simp), hc]
    unfold Injection.getAction
    rw [if_neg (by norm_num [Injection.settingsBlockThreshold]),
        if_neg (by norm_num [Injection.settingsWarnThreshold])]

/-- C1 (amended): with no configuration overrides the pipeline detector has
`block_threshold = 0.9` and `warn_threshold = 0.7`, and for every scan the
reported action is `BLOCK` iff the reported risk score is `≥ 0.9`, `WARN`
iff it is in `[0.7, 0.9)`, and `PASS` iff it is `< 0.7`. -/
theorem injection_pipeline_action_thresholds (ws : List ℚ) :
    Injection.settingsBlockThreshold = 9/10 ∧
    Injection.settingsWarnThreshold = 7/10 ∧
    ((Injection.pipelineScanOutcome ws).2 = .block ↔
      9/10 ≤ (Injection.pipelineScanOutcome ws).1) ∧
    ((Injection.pipelineScanOutcome ws).2 = .warn ↔
      (7/10 ≤ (Injection.pipelineScanOutcome ws).1 ∧
       (Injection.pipelineScanOutcome ws).1 < 9/10)) ∧
    ((Injection.pipelineScanOutcome ws).2 = .pass ↔
      (Injection.pipelineScanOutcome ws).1 < 7/10) := by
  refine ⟨rfl, rfl, ?_⟩
  unfold Injection.pipelineScanOutcome Injection.scanOutcome
  unfold Injection.settingsBlockThreshold Injection.settingsWarnThreshold
  by_cases hws : ws = []
  · rw [if_pos hws]
    dsimp only
    refine ⟨⟨fun h => absurd h (by decide), fun h => absurd h (by norm_num)⟩,
            ⟨fun h => absurd h (by decide), fun h => absurd h.1 (by norm_num)⟩,
            ⟨fun _ => by norm_num, fun _ => rfl⟩⟩
  · rw [if_neg hws]
    set s := Injection.combineScores ws
    unfold Injection.getAction
    by_cases h1 : (9/10 : ℚ) ≤ s
    · rw [if_pos h1]
      dsimp only
      exact ⟨⟨fun _ => h1, fun _ => rfl⟩,
             ⟨fun h => absurd h (by decide),
              fun h => absurd h1 (not_le.mpr h.2)⟩,
             ⟨fun h => absurd h (by decide),
              fun h => absurd h1 (not_le.mpr (by linarith))⟩⟩
    · rw [if_neg h1]
      by_cases h2 : (7/10 : ℚ) ≤ s
      · rw [if_pos h2]
        dsimp only
        exact ⟨⟨fun h => absurd h (by decide), fun h => absurd h h1⟩,
               ⟨fun _ => ⟨h2, lt_of_not_le h1⟩, fun _ => rfl⟩,
               ⟨fun h => absurd h (by decide),
                fun h => absurd h2 (not_le.mpr h)⟩⟩
      · rw [if_neg h2]
        dsimp only
        exact ⟨⟨fun h => absurd h (by decide), fun h => absurd h h1⟩,
               ⟨fun h => absurd h (by decide), fun h => absurd h.1 h2⟩,
               ⟨fun _ => lt_of_not_le h2, fun _ => rfl⟩⟩

/-- Counterexample to C9: a single matched rule of weight `1/3` yields the
reported score `round(1/3, 4) = 0.3333 ≠ 1/3`, so "exactly one rule of
weight `w` matches ⇒ score `= w`" fails for weights that are not exact to
four decimal places. -/
theorem injection_single_weight_counterexample :
    Injection.combineScores [1/3] = 3333/10000 ∧
    Injection.combineScores [1/3] ≠ 1/3 := by
  have h : Injection.combineScores [1/3] = 3333/10000 := by
    rw [Injection.combineScores_singleton]
    unfold round4 roundHalfEven
    have hf : ⌊((1:ℚ)/3 * 10000)⌋ = 3333 := by norm_num
    rw [hf]
    rw [if_pos (by norm_num)]
    norm_num
  exact ⟨h, by rw [h]; norm_num⟩

/-- C9 (amended): the reported risk score is
`round(1 − Π (1 − wᵢ), 4)` over the matched weights, `0.0` when no rule
matches, and a single matched rule of weight `w` yields exactly `w` for
every default rule weight (all of which are exact to four decimals). -/
theorem injection_risk_score_formula (ws : List ℚ) (hne : ws ≠ []) :
    Injection.combineScores ws =
      round4 (1 - (ws.map (fun w => 1 - w)).prod) ∧
    Injection.combineScores [] = 0 ∧
    (∀ w ∈ Injection.defaultRuleWeights, Injection.combineScores [w] = w) := by
  refine ⟨by unfold Injection.combineScores; rw [if_neg hne], rfl, ?_⟩
  intro w hw
  rw [Injection.combineScores_singleton]
  apply round4_eq_self
  fin_cases hw
  · exact ⟨9500, by norm_num⟩
  · exact ⟨7000, by norm_num⟩
  · exact ⟨9000, by norm_num⟩
  · exact ⟨9500, by norm_num⟩
  · exact ⟨8500, by norm_num⟩
  · exact ⟨8000, by norm_num⟩
  · exact ⟨9000, by norm_num⟩
  · exact ⟨8500, by norm_num⟩

/-- Witness for `injection_risk_score_formula` at the single-element weight
list `[0.95]` (the `ignore_instructions` rule). -/
theorem injection_risk_score_formula_witness :
    Injection.combineScores [] = 0 ∧
    Injection.combineScores [95/100] = 95/100 := by
  have h := injection_risk_score_formula [95/100] (by simp)
  exact ⟨h.2.1, h.2.2 (95/100) (by norm_num [Injection.defaultRuleWeights])⟩

/-- C3: `execute_with_retry` invokes the operation at most `max_attempts`
times; it returns the first successful invocation's result (stopping
there); if every allowed invocation fails it propagates exactly the last
invocation's error; and the backoffs slept, in order, are
`min(max_delay, base_delay·2ⁿ + uₙ)` for consecutive attempts
`n = 1, 2, …` (at most `max_attempts − 1` of them), where each `uₙ` is the
value drawn from `U[0, base_delay]`. -/
theorem retry_execute_contract (p : Retry.RetryPolicy) (u : ℕ → ℚ)
    {E A : Type} (op : ℕ → Except E A)
    (hu : ∀ n, 0 ≤ u n ∧ u n ≤ p.base_delay) :
    (Retry.executeWithRetry p u op).calls ≤ p.max_attempts ∧
    (∀ n a, 1 ≤ n → n ≤ p.max_attempts → op n = .ok a →
      (∀ m, 1 ≤ m → m < n → ∃ e, op m = .error e) →
      (Retry.executeWithRetry p u op).outcome = some (.ok a) ∧
      (Retry.executeWithRetry p u op).calls = n) ∧
    (∀ e, 1 ≤ p.max_attempts →
      (∀ m, 1 ≤ m → m ≤ p.max_attempts → ∃ e0, op m = .error e0) →
      op p.max_attempts = .error e →
      (Retry.executeWithRetry p u op).outcome = some (.error e)) ∧
    (∃ k, k ≤ p.max_attempts - 1 ∧
      (Retry.executeWithRetry p u op).sleeps =
        (List.range' 1 k).map
          (fun n => min p.max_delay (p.base_delay * 2 ^ n + u n)) ∧
      ∀ n, 0 ≤ u n ∧ u n ≤ p.base_delay) := by
  refine ⟨Retry.executeAux_calls_le p u op p.max_attempts 1, ?_, ?_, ?_⟩
  · intro n a h1 h2 hok hfail
    have h := Retry.executeAux_first_success p u op p.max_attempts 1 n a
      (by omega) h1 h2 hok hfail
    exact ⟨h.1, by rw [Retry.executeWithRetry, h.2]; omega⟩
  · intro e hmax hfail hlast
    exact Retry.executeAux_all_fail p u op p.max_attempts 1 e (by omega)
      hmax hfail hlast
  · obtain ⟨k, hk, hsl⟩ := Retry.executeAux_sleeps p u op p.max_attempts 1
      (by omega)
    exact ⟨k, hk, hsl, hu⟩

/-- Witness for `retry_execute_contract`: policy `(3, 1, 40)`, zero jitter,
an operation failing every attempt with its attempt number as the error:
the run propagates the last error `3`, makes at most 3 calls, and sleeps
`min(40, 2) = 2` then `min(40, 4) = 4`. -/
theorem retry_execute_contract_witness :
    (Retry.executeWithRetry ⟨3, 1, 40⟩ (fun _ => 0)
        (fun n => (Except.error n : Except ℕ Unit))).outcome =
      some (.error 3) ∧
    (Retry.executeWithRetry ⟨3, 1, 40⟩ (fun _ => 0)
        (fun n => (Except.error n : Except ℕ Unit))).calls ≤ 3 ∧
    (∃ k, k ≤ 2 ∧
      (Retry.executeWithRetry ⟨3, 1, 40⟩ (fun _ => 0)
          (fun n => (Except.error n : Except ℕ Unit))).sleeps =
        (List.range' 1 k).map (fun n => min (40 : ℚ) (1 * 2 ^ n + 0))) := by
  have h := retry_execute_contract ⟨3, 1, 40⟩ (fun _ => 0)
    (fun n => (Except.error n : Except ℕ Unit))
    (fun n => ⟨le_refl 0, by norm_num⟩)
  refine ⟨?_, h.1, ?_⟩
  · exact h.2.2.1 3 (by norm_num) (fun m hm1 hm2 => ⟨m, rfl⟩) rfl
  · obtain ⟨k, hk, hsl, -⟩ := h.2.2.2
    exact ⟨k, hk, hsl⟩

/-- C4: `Router.route` attempts providers strictly in declared order;
unavailable providers are skipped without contributing an error; the first
successful `complete` response is returned (nothing after it is
attempted); an exhausted chain fails with `AllProvidersFailed` carrying
exactly one `(name, error)` pair per attempted-and-failed provider in
attempt order; a chain whose providers are all skipped yields
`AllProvidersFailed` with an empty error list; an empty chain yields
`NoProvider`. -/
theorem router_route_contract {E R : Type} (chain : List (Router.Provider E R)) :
    (chain = [] → Router.route chain = (.error .noProvider, [])) ∧
    ((∀ p ∈ chain, p.available = true → ∃ e, p.outcome = .error e) →
      chain ≠ [] →
      Router.route chain =
        (.error (.allProvidersFailed (Router.failurePairs chain)),
         (chain.filter (fun p => p.available)).map (fun p => p.name))) ∧
    ((∀ p ∈ chain, p.available = false) → chain ≠ [] →
      Router.route chain = (.error (.allProvidersFailed []), [])) ∧
    (∀ pre (p : Router.Provider E R) post (r : R),
      chain = pre ++ p :: post →
      p.available = true → p.outcome = .ok r →
      (∀ q ∈ pre, q.available = true → ∃ e, q.outcome = .error e) →
      Router.route chain =
        (.ok r, (pre.filter (fun q => q.available)).map (fun q => q.name) ++
          [p.name])) := by
  refine ⟨?_, ?_, ?_, ?_⟩
  · intro h
    subst h
    rfl
  · intro h hne
    rw [Router.route_ne_nil chain hne, Router.routeGo_all_fail chain [] h]
    rw [List.nil_append]
  · intro h hne
    rw [Router.route_ne_nil chain hne, Router.routeGo_all_fail chain []
      (fun p hp hav => absurd (h p hp) (by simp [hav]))]
    rw [List.nil_append, Router.failurePairs_all_skipped chain h,
        Router.filter_all_skipped chain h]
    rfl
  · intro pre p post r hchain hav hok hpre
    have hne : chain ≠ [] := by
      rw [hchain]
      exact List.append_ne_nil_of_right_ne_nil _ (by simp)
    rw [Router.route_ne_nil chain hne, hchain,
        Router.routeGo_first_success pre p post [] r hav hok hpre]

/-- Witness for `router_route_contract` on concrete chains: with
`a` failing, `b` unavailable, `c` succeeding with 42 and `d` after it,
routing returns 42 having attempted exactly `a` then `c`; the chain
`[a, b]` exhausts with the single pair `("a", 1)`; the chain `[b]` yields
an empty error list; the empty chain yields `NoProvider`. -/
theorem router_route_contract_witness :
    Router.route [(⟨"a", true, .error 1⟩ : Router.Provider ℕ ℕ),
        ⟨"b", false, .error 2⟩, ⟨"c", true, .ok 42⟩, ⟨"d", true, .error 3⟩] =
      (.ok 42, ["a", "c"]) ∧
    Router.route [(⟨"a", true, .error 1⟩ : Router.Provider ℕ ℕ),
        ⟨"b", false, .error 2⟩] =
      (.error (.allProvidersFailed [("a", 1)]), ["a"]) ∧
    Router.route [(⟨"b", false, .error 2⟩ : Router.Provider ℕ ℕ)] =
      (.error (.allProvidersFailed []), []) ∧
    Router.route ([] : List (Router.Provider ℕ ℕ)) =
      (.error .noProvider, []) := by
  refine ⟨?_, ?_, ?_, ?_⟩
  · have h := (router_route_contract [(⟨"a", true, .error 1⟩ : Router.Provider ℕ ℕ),
        ⟨"b", false, .error 2⟩, ⟨"c", true, .ok 42⟩, ⟨"d", true, .error 3⟩]).2.2.2
    have := h [⟨"a", true, .error 1⟩, ⟨"b", false, .error 2⟩]
      ⟨"c", true, .ok 42⟩ [⟨"d", true, .error 3⟩] 42 rfl rfl rfl
      (by
        intro q hq hav
        simp only [List.mem_cons, List.not_mem_nil, or_false] at hq
        rcases hq with rfl | rfl
        · exact ⟨1, rfl⟩
        · exact absurd hav (by decide))
    rw [this]
    rfl
  · have h := (router_route_contract [(⟨"a", true, .error 1⟩ : Router.Provider ℕ ℕ),
        ⟨"b", false, .error 2⟩]).2.1
    have := h
      (by
        intro q hq hav
        simp only [List.mem_cons, List.not_mem_nil, or_false] at hq
        rcases hq with rfl | rfl
        · exact ⟨1, rfl⟩
        · exact absurd hav (by decide))
      (by simp)
    rw [this]
    rfl
  · have h := (router_route_contract [(⟨"b", false, .error 2⟩ : Router.Provider ℕ ℕ)]).2.2.1
    exact h
      (by
        intro q hq
        simp only [List.mem_cons, List.not_mem_nil, or_false] at hq
        rcases hq with rfl
        rfl)
      (by simp)
  · exact (router_route_contract ([] : List (Router.Provider ℕ ℕ))).1 rfl

/-- The fixed key orders emitted by `canonicalParamsJson` and
`messageJson` are exactly Python's sorted orders, so the emitted strings
agree with `json.dumps(..., sort_keys=True)`. -/
theorem canonical_json_keys_sorted :
    Cache.pyStrLt ("max_tokens" : String).data ("messages" : String).data = true ∧
    Cache.pyStrLt ("messages" : String).data ("model" : String).data = true ∧
    Cache.pyStrLt ("model" : String).data ("temperature" : String).data = true ∧
    Cache.pyStrLt ("content" : String).data ("role" : String).data = true := by
  exact ⟨by decide, by decide, by decide, by decide⟩

/-- Concrete shape of the canonical JSON for one message at temperature
1.0 with no `max_tokens` (matches `json.dumps` byte for byte). -/
theorem canonical_json_example :
    Cache.canonicalParamsJson "m" [("user", "hi")] 1 none =
      "\x7b\"max_tokens\": null, \"messages\": [\x7b\"content\": \"hi\", \"role\": \"user\"\x7d], \"model\": \"m\", \"temperature\": 1.0\x7d" := by
  decide

/-- Counterexample to C5: the pipeline's `generate_key` call site passes
only `(model, messages, temperature)`, so `max_tokens` is always `None`
in the canonical JSON; two requests that differ only in `max_tokens`
yield the *same* canonical JSON string and the same key, against the
claim that their keys derive from different JSON strings. -/
theorem cache_key_max_tokens_counterexample :
    (⟨"gpt-4", [("user", "hi")], 1, some 5⟩ : Cache.PipelineRequest).max_tokens ≠
      (⟨"gpt-4", [("user", "hi")], 1, some 10⟩ : Cache.PipelineRequest).max_tokens ∧
    Cache.keyOfRequest ⟨"gpt-4", [("user", "hi")], 1, some 5⟩ =
      Cache.keyOfRequest ⟨"gpt-4", [("user", "hi")], 1, some 10⟩ ∧
    Cache.jsonOfRequest ⟨"gpt-4", [("user", "hi")], 1, some 5⟩ =
      Cache.jsonOfRequest ⟨"gpt-4", [("user", "hi")], 1, some 10⟩ :=
  ⟨by decide, rfl, rfl⟩

/-- C5 (amended): the pipeline's exact-cache key is `llm:` + hex SHA-256
of the canonical JSON (sorted keys, stable UTF-8) of
`{model, messages, temperature, max_tokens}` with `max_tokens` always
`null` (the call site omits it); requests identical in
`(model, messages, temperature)` therefore get byte-equal keys
regardless of `max_tokens`. -/
theorem cache_key_pipeline_derivation (r1 r2 : Cache.PipelineRequest)
    (hm : r1.model = r2.model) (hmsg : r1.messages = r2.messages)
    (ht : r1.temperature = r2.temperature) :
    Cache.keyOfRequest r1 =
      "llm:" ++ Cache.sha256hex (Cache.jsonOfRequest r1) ∧
    Cache.jsonOfRequest r1 =
      Cache.canonicalParamsJson r1.model r1.messages r1.temperature none ∧
    Cache.keyOfRequest r1 = Cache.keyOfRequest r2 := by
  refine ⟨rfl, rfl, ?_⟩
  unfold Cache.keyOfRequest Cache.pipelineCacheKey
  rw [hm, hmsg, ht]

/-- Witness for `cache_key_pipeline_derivation` at two concrete requests
differing only in `max_tokens` (`some 5` vs `none`). -/
theorem cache_key_pipeline_derivation_witness :
    Cache.keyOfRequest ⟨"gpt-4", [("user", "hi")], 1, some 5⟩ =
      "llm:" ++ Cache.sha256hex
        (Cache.jsonOfRequest ⟨"gpt-4", [("user", "hi")], 1, some 5⟩) ∧
    Cache.keyOfRequest ⟨"gpt-4", [("user", "hi")], 1, some 5⟩ =
      Cache.keyOfRequest ⟨"gpt-4", [("user", "hi")], 1, none⟩ := by
  have h := cache_key_pipeline_derivation
    ⟨"gpt-4", [("user", "hi")], 1, some 5⟩
    ⟨"gpt-4", [("user", "hi")], 1, none⟩ rfl rfl rfl
  exact ⟨h.1, h.2.2⟩

/-- C6 (with the code bug exhibited): when no threshold is passed —
as in every `SemanticCacheService.lookup` call — `search` raises
`AttributeError` because `Settings` has no `semantic_cache_threshold`
field, instead of using a configured default; with an explicit threshold,
search on an empty store returns none, and any returned `(metadata,
score)` pair (there is at most one, by the return type) has `score` equal
to the inner product of a stored embedding with the query and
`score ≥ threshold`. -/
theorem vector_store_search_contract {Meta : Type} (vs : Store.VectorStore Meta)
    (q : List ℚ) (t : ℚ) :
    Store.search vs q none = .error .missingSemanticCacheThreshold ∧
    (vs.index = [] → Store.search vs q (some t) = .ok none) ∧
    (∀ (m : Meta) (s : ℚ), Store.search vs q (some t) = .ok (some (m, s)) →
      t ≤ s ∧ ∃ i e, vs.index.get? i = some e ∧ Store.innerProduct e q = s ∧
        Store.lookupMeta vs.metadata i = some m) := by
  refine ⟨rfl, ?_, ?_⟩
  · intro h
    unfold Store.search
    rw [h]
  · intro m s hs
    unfold Store.search at hs
    rcases hidx : vs.index with _ | ⟨e0, rest⟩
    · rw [hidx] at hs
      cases hs
    · rw [hidx] at hs
      dsimp only at hs
      by_cases hlt : (Store.bestGo q rest 1 (0, Store.innerProduct e0 q)).2 < t
      · rw [if_pos hlt] at hs
        cases hs
      · rw [if_neg hlt] at hs
        rcases hmeta : Store.lookupMeta vs.metadata
            (Store.bestGo q rest 1 (0, Store.innerProduct e0 q)).1 with _ | m0
        · rw [hmeta] at hs
          cases hs
        · rw [hmeta] at hs
          have hbest := @Store.bestGo_spec q (e0 :: rest) rest 1
            (0, Store.innerProduct e0 q)
            (by intro j hj; rw [Nat.add_comm]; simp)
            ⟨e0, by simp, rfl⟩
          obtain ⟨e, he, hip⟩ := hbest
          cases hs
          exact ⟨not_lt.mp hlt,
            (Store.bestGo q rest 1 (0, Store.innerProduct e0 q)).1, e,
            he, hip, hmeta⟩

/-- Witness for `vector_store_search_contract`: the empty store returns
none under an explicit threshold and errors without one; a store holding
the 1-dimensional embedding `[2]` with metadata `42` searched with query
`[3]` under threshold `5` returns `(42, 6)` with `6 = ⟨[2],[3]⟩ ≥ 5`. -/
theorem vector_store_search_contract_witness :
    Store.search (⟨[], [], 0⟩ : Store.VectorStore ℕ) [1] none =
      .error .missingSemanticCacheThreshold ∧
    Store.search (⟨[], [], 0⟩ : Store.VectorStore ℕ) [1] (some (1/2)) =
      .ok none ∧
    Store.search (⟨[[2]], [(0, 42)], 1⟩ : Store.VectorStore ℕ) [3] (some 5) =
      .ok (some (42, 6)) ∧
    (5 : ℚ) ≤ 6 ∧
    Store.innerProduct [2] [3] = 6 := by
  have h1 := (vector_store_search_contract (⟨[], [], 0⟩ : Store.VectorStore ℕ)
    [1] (1/2)).1
  have h2 := (vector_store_search_contract (⟨[], [], 0⟩ : Store.VectorStore ℕ)
    [1] (1/2)).2.1 rfl
  have hip : Store.innerProduct [2] [3] = 6 := by
    unfold Store.innerProduct
    norm_num
  have hs : Store.search (⟨[[2]], [(0, 42)], 1⟩ : Store.VectorStore ℕ) [3]
      (some 5) = .ok (some (42, 6)) := by
    norm_num [Store.search, Store.bestGo, Store.lookupMeta, hip]
  have h3 := (vector_store_search_contract
    (⟨[[2]], [(0, 42)], 1⟩ : Store.VectorStore ℕ) [3] 5).2.2 42 6 hs
  exact ⟨h1, h2, hs, h3.1, hip⟩

/-- Counterexample to C7: `_redact_text` applies every finding right to
left with no overlap handling, so for the text `"0123456789"` with
overlapping findings `(0, 10)` and `(5, 8)` (both of type `name`) the
result is `"[NAME]]89"` — fragments of the inner replacement and of text
inside the wider span survive — not the `"[NAME]"` that redacting the
widest span would produce. -/
theorem pii_redact_overlap_counterexample :
    PII.redactText ("0123456789").data
        [⟨0, 10, .name⟩, ⟨5, 8, .name⟩] = ("[NAME]]89").data ∧
    PII.redactText ("0123456789").data
        [⟨0, 10, .name⟩, ⟨5, 8, .name⟩] ≠ ("[NAME]").data := by
  exact ⟨by decide, by decide⟩

/-- C7 (amended): for pairwise-disjoint in-bounds findings, redaction
replaces exactly each finding's span with `[` + uppercased type + `]`,
rewriting right to left so earlier offsets stay valid, and leaves the
text outside the spans unchanged (overlapping spans are not merged: each
is rewritten independently, which can leave fragments); and the
pipeline's redaction step never changes a message's role or the number
and order of messages. -/
theorem pii_redaction_spec (text : List Char) (findings : List PII.Finding)
    (h : PII.DescWF text.length findings) :
    PII.redactText text findings = PII.specDesc text findings ∧
    (∀ (messages : List (String × String))
        (results : List (ℕ × PII.PIIResult)),
      (PII.applyRedactionToMessages messages results).length =
        messages.length ∧
      ∀ i, ((PII.applyRedactionToMessages messages results).get? i).map
          Prod.fst = (messages.get? i).map Prod.fst) := by
  constructor
  · unfold PII.redactText
    rw [PII.sortDesc_eq h]
    exact PII.foldl_applyOne_spec h
  · intro messages results
    constructor
    · unfold PII.applyRedactionToMessages
      rw [List.length_map, List.enum_length]
    · intro i
      unfold PII.applyRedactionToMessages
      rw [List.get?_map, List.enum_get?]
      cases hm : messages.get? i with
      | none => rfl
      | some m =>
          cases hlr : PII.lookupResult results i with
          | none => simp [hlr]
          | some r =>
              cases hpt : r.processed_text with
              | none => simp [hlr, hpt]
              | some t => simp [hlr, hpt]

/-- Witness for `pii_redaction_spec`: in `"abcdef"`, redacting the spans
`(4, 6)` as `email` and `(1, 2)` as `phone` yields
`"a[PHONE]cd[EMAIL]"`, and a singleton message list keeps its length and
role through the pipeline rewrite. -/
theorem pii_redaction_spec_witness :
    PII.redactText ("abcdef").data [⟨4, 6, .email⟩, ⟨1, 2, .phone⟩] =
      ("a[PHONE]cd[EMAIL]").data ∧
    (PII.applyRedactionToMessages [("user", "x")] []).length = 1 ∧
    ((PII.applyRedactionToMessages [("user", "x")] []).get? 0).map
        Prod.fst = some "user" := by
  have h := pii_redaction_spec ("abcdef").data
    [⟨4, 6, .email⟩, ⟨1, 2, .phone⟩]
    ⟨by decide, by decide, by decide, by decide, trivial⟩
  refine ⟨?_, ?_, ?_⟩
  · rw [h.1]
    decide
  · exact (h.2 [("user", "x")] []).1
  · rw [(h.2 [("user", "x")] []).2 0]
    rfl

/-- Counterexample to C8: with the PII action `redact` and a detector
hitting the whole last message `"0123456789"`, the pipeline's semantic
lookup receives the redacted `"[NAME]"`, not the raw ingress content —
the full trace shows the stage order and the query actually passed. -/
theorem pipeline_semantic_query_counterexample :
    Pipeline.pipeline
      { rateLimiterAllowed := some true
        piiShield := some (.redact,
          fun text =>
            if text = ("0123456789").data then [⟨0, 10, .name⟩] else [])
        injectionScan := some (fun _ => .pass)
        semanticLookup := some (fun _ => none)
        exactCacheHit := some (fun _ => false)
        routerPresent := true }
      "m" 1 [("user", "0123456789")] =
      some (.fromRouter,
        [.rateLimit, .piiScan, .injectionScan,
         .semanticLookup "[NAME]",
         .exactLookup (Cache.pipelineCacheKey "m" [("user", "[NAME]")] 1),
         .routerDispatch]) ∧
    ("[NAME]" : String) ≠ "0123456789" :=
  ⟨rfl, by decide⟩

/-- C8 (amended): with every stage configured and no early exit, the
non-streaming pipeline executes exactly rate limit → PII shield →
injection detector → semantic-cache lookup → exact-cache lookup → router
dispatch, and the string passed to the semantic-cache lookup is the
content of the request's last message *after* PII processing (the
post-redaction content when the action is redact), with the exact-cache
key computed from the same post-redaction messages. -/
theorem pipeline_stage_order (st : Pipeline.Stages)
    (detect : List Char → List PII.Finding)
    (scan : List (String × String) → Injection.InjectionAction)
    (look : String → Option String) (hit : String → Bool)
    (model : String) (temperature : ℚ)
    (messages : List (String × String))
    (hne : messages ≠ [])
    (hrl : st.rateLimiterAllowed = some true)
    (hpii : st.piiShield = some (.redact, detect))
    (hinj : st.injectionScan = some scan)
    (hsem : st.semanticLookup = some look)
    (hex : st.exactCacheHit = some hit)
    (hrouter : st.routerPresent = true)
    (hscan : scan (PII.applyRedactionToMessages messages
      (PII.scanMessages detect .redact messages)) ≠ .block)
    (hlook : look (((PII.applyRedactionToMessages messages
      (PII.scanMessages detect .redact messages)).getLast?.map
        Prod.snd).getD "") = none)
    (hhit : hit (Cache.pipelineCacheKey model
      (PII.applyRedactionToMessages messages
        (PII.scanMessages detect .redact messages)) temperature) = false) :
    Pipeline.pipeline st model temperature messages =
      some (.fromRouter,
        [.rateLimit, .piiScan, .injectionScan,
         .semanticLookup (((PII.applyRedactionToMessages messages
           (PII.scanMessages detect .redact messages)).getLast?.map
             Prod.snd).getD ""),
         .exactLookup (Cache.pipelineCacheKey model
           (PII.applyRedactionToMessages messages
             (PII.scanMessages detect .redact messages)) temperature),
         .routerDispatch]) := by
  have hlast : ∃ l, messages.getLast? = some l := by
    cases hm : messages.getLast? with
    | none => exact absurd (List.getLast?_eq_none_iff.mp hm) hne
    | some l => exact ⟨l, rfl⟩
  obtain ⟨l, hl⟩ := hlast
  unfold Pipeline.pipeline
  rw [hl, hrl]
  dsimp only
  unfold Pipeline.continuePII
  rw [hpii]
  dsimp only
  cases hres : PII.scanMessages detect .redact messages with
  | nil =>
      rw [hres, PII.applyRedaction_nil] at hscan hlook hhit
      dsimp only
      unfold Pipeline.continueInjection
      rw [hinj]
      dsimp only
      cases hs : scan messages with
      | block => exact absurd hs hscan
      | warn =>
          dsimp only
          unfold Pipeline.continueSemantic
          rw [hsem]
          dsimp only
          rw [hlook]
          unfold Pipeline.continueExact
          rw [hex]
          dsimp only
          rw [hhit]
          simp [Pipeline.continueRouter, hrouter, PII.applyRedaction_nil]
      | pass =>
          dsimp only
          unfold Pipeline.continueSemantic
          rw [hsem]
          dsimp only
          rw [hlook]
          unfold Pipeline.continueExact
          rw [hex]
          dsimp only
          rw [hhit]
          simp [Pipeline.continueRouter, hrouter, PII.applyRedaction_nil]
  | cons r rs =>
      rw [hres] at hscan hlook hhit
      dsimp only
      rw [if_neg (by decide), if_pos rfl]
      unfold Pipeline.continueInjection
      rw [hinj]
      dsimp only
      cases hs : scan (PII.applyRedactionToMessages messages (r :: rs)) with
      | block => exact absurd hs hscan
      | warn =>
          dsimp only
          unfold Pipeline.continueSemantic
          rw [hsem]
          dsimp only
          rw [hlook]
          unfold Pipeline.continueExact
          rw [hex]
          dsimp only
          rw [hhit]
          simp [Pipeline.continueRouter, hrouter]
      | pass =>
          dsimp only
          unfold Pipeline.continueSemantic
          rw [hsem]
          dsimp only
          rw [hlook]
          unfold Pipeline.continueExact
          rw [hex]
          dsimp only
          rw [hhit]
          simp [Pipeline.continueRouter, hrouter]

/-- Witness for `pipeline_stage_order`: a request whose detector finds
nothing runs all six stages in order with the last message's content
`"hello"` as the semantic query. -/
theorem pipeline_stage_order_witness :
    Pipeline.pipeline
      { rateLimiterAllowed := some true
        piiShield := some (.redact, fun _ => [])
        injectionScan := some (fun _ => .pass)
        semanticLookup := some (fun _ => none)
        exactCacheHit := some (fun _ => false)
        routerPresent := true }
      "m" 1 [("user", "hello")] =
      some (.fromRouter,
        [.rateLimit, .piiScan, .injectionScan,
         .semanticLookup "hello",
         .exactLookup (Cache.pipelineCacheKey "m" [("user", "hello")] 1),
         .routerDispatch]) := by
  have h := pipeline_stage_order
    { rateLimiterAllowed := some true
      piiShield := some (.redact, fun _ => [])
      injectionScan := some (fun _ => .pass)
      semanticLookup := some (fun _ => none)
      exactCacheHit := some (fun _ => false)
      routerPresent := true }
    (fun _ => []) (fun _ => .pass) (fun _ => none) (fun _ => false)
    "m" 1 [("user", "hello")]
    (by simp) rfl rfl rfl rfl rfl rfl (by decide) rfl rfl
  rw [h]
  rfl

end Sentinel
